import Mathlib

/-!
Verification of the kg_vasc holdout generator.

The CLI command `holdouts` in src/kg_vasc/run.py declares options
nodes, edges, output_dir, train_fraction and validation, and its body is a
bare `pass` (the call to `make_holdouts` is commented out).  The holdout
algorithm itself is therefore modelled from the specification: graph model,
union-find based spanning-forest builder, positive holdout sampler and
rejection-sampling negative sampler, with an explicit seeded RNG stream.
-/

namespace KgVasc

/-- An edge is an ordered pair (subject, object) of node identifiers.
Node identifiers are modelled as naturals. -/
abbrev Edge := ℕ × ℕ

/-- A single undirected step along an edge of the list `E`
(edges are treated as undirected for connectivity purposes). -/
def edgeStep (E : List Edge) (a b : ℕ) : Prop :=
  (a, b) ∈ E ∨ (b, a) ∈ E

/-- Connectivity: the reflexive transitive closure of `edgeStep`. -/
def connected (E : List Edge) : ℕ → ℕ → Prop :=
  Relation.ReflTransGen (edgeStep E)

theorem edgeStep_symmetric (E : List Edge) : Symmetric (edgeStep E) := by
  intro a b h
  exact h.symm

theorem connected.refl (E : List Edge) (a : ℕ) : connected E a a :=
  Relation.ReflTransGen.refl

theorem connected.symm {E : List Edge} {a b : ℕ} (h : connected E a b) :
    connected E b a :=
  (Relation.ReflTransGen.symmetric (edgeStep_symmetric E)) h

theorem connected.trans {E : List Edge} {a b c : ℕ}
    (h1 : connected E a b) (h2 : connected E b c) : connected E a c :=
  Relation.ReflTransGen.trans h1 h2

theorem connected_of_step {E : List Edge} {a b : ℕ} (h : edgeStep E a b) :
    connected E a b :=
  Relation.ReflTransGen.single h

theorem connected_of_mem {E : List Edge} {e : Edge} (h : e ∈ E) :
    connected E e.1 e.2 :=
  connected_of_step (Or.inl h)

theorem connected_mono {E F : List Edge} (hsub : ∀ e ∈ E, e ∈ F) {a b : ℕ}
    (h : connected E a b) : connected F a b := by
  refine Relation.ReflTransGen.mono ?_ h
  intro x y hxy
  rcases hxy with h1 | h2
  · exact Or.inl (hsub _ h1)
  · exact Or.inr (hsub _ h2)

theorem connected_nil {a b : ℕ} : connected [] a b ↔ a = b := by
  constructor
  · intro h
    induction h with
    | refl => rfl
    | tail _ hs ih =>
      rcases hs with h1 | h1 <;> simp at h1
  · rintro rfl
    exact connected.refl _ _

/-- If every edge of `E` has its endpoints connected in `F`, then
`E`-connectivity implies `F`-connectivity. -/
theorem connected_le {E F : List Edge}
    (h : ∀ e ∈ E, connected F e.1 e.2) {a b : ℕ}
    (hab : connected E a b) : connected F a b := by
  induction hab with
  | refl => exact connected.refl _ _
  | tail _ hs ih =>
    rcases hs with h1 | h1
    · exact ih.trans (h _ h1)
    · exact ih.trans (h _ h1).symm

/-- Adding one edge to the edge list refines connectivity in a controlled
way: the new relation either coincides with the old one or routes through
the endpoints of the new edge. -/
theorem connected_cons {e : Edge} {E : List Edge} {x y : ℕ} :
    connected (e :: E) x y ↔
      connected E x y ∨ (connected E x e.1 ∧ connected E e.2 y) ∨
        (connected E x e.2 ∧ connected E e.1 y) := by
  constructor
  · intro h
    induction h with
    | refl => exact Or.inl (connected.refl _ _)
    | tail _ hs ih =>
      rename_i b c _
      have hstep : (b, c) = e ∨ (b, c) ∈ E ∨ (c, b) = e ∨ (c, b) ∈ E := by
        rcases hs with h1 | h1 <;> simp only [List.mem_cons] at h1 <;> tauto
      rcases hstep with h1 | h1 | h1 | h1
      · -- the step uses the new edge forwards : b = e.1, c = e.2
        have hb : b = e.1 := by rw [← h1]
        have hc : c = e.2 := by rw [← h1]
        subst hb; subst hc
        rcases ih with ih | ⟨ih1, ih2⟩ | ⟨ih1, ih2⟩
        · exact Or.inr (Or.inl ⟨ih, connected.refl _ _⟩)
        · exact Or.inr (Or.inl ⟨ih1, connected.refl _ _⟩)
        · exact Or.inl ih1
      · -- step inside E
        have hbc : connected E b c := connected_of_step (Or.inl h1)
        rcases ih with ih | ⟨ih1, ih2⟩ | ⟨ih1, ih2⟩
        · exact Or.inl (ih.trans hbc)
        · exact Or.inr (Or.inl ⟨ih1, ih2.trans hbc⟩)
        · exact Or.inr (Or.inr ⟨ih1, ih2.trans hbc⟩)
      · -- the step uses the new edge backwards : b = e.2, c = e.1
        have hb : b = e.2 := by rw [← h1]
        have hc : c = e.1 := by rw [← h1]
        subst hb; subst hc
        rcases ih with ih | ⟨ih1, ih2⟩ | ⟨ih1, ih2⟩
        · exact Or.inr (Or.inr ⟨ih, connected.refl _ _⟩)
        · exact Or.inl ih1
        · exact Or.inr (Or.inr ⟨ih1, connected.refl _ _⟩)
      · -- step inside E, reversed orientation
        have hbc : connected E b c := connected_of_step (Or.inr h1)
        rcases ih with ih | ⟨ih1, ih2⟩ | ⟨ih1, ih2⟩
        · exact Or.inl (ih.trans hbc)
        · exact Or.inr (Or.inl ⟨ih1, ih2.trans hbc⟩)
        · exact Or.inr (Or.inr ⟨ih1, ih2.trans hbc⟩)
  · have hsub : ∀ p ∈ E, p ∈ e :: E := fun p hp => List.mem_cons_of_mem _ hp
    have hnew : connected (e :: E) e.1 e.2 :=
      connected_of_step (Or.inl (List.mem_cons_self _ _))
    rintro (h | ⟨h1, h2⟩ | ⟨h1, h2⟩)
    · exact connected_mono hsub h
    · exact ((connected_mono hsub h1).trans hnew).trans (connected_mono hsub h2)
    · exact ((connected_mono hsub h1).trans hnew.symm).trans (connected_mono hsub h2)

/-- Modelled from the spec (4.2 Union-Find): the disjoint-set state is kept
as the map from each node to its current representative; `dsuUnion` returns
the updated map together with whether a merge occurred (false when the two
nodes were already in the same set).  Path compression and union by rank are
performance devices of the spec and do not change the computed partition. -/
def dsuUnion (f : ℕ → ℕ) (a b : ℕ) : (ℕ → ℕ) × Bool :=
  if f a = f b then (f, false)
  else ((fun x => if f x = f b then f a else f x), true)

/-- State of the spanning-forest builder: the union-find map, the forest
edges collected so far, and the candidate (non-tree) edges so far. -/
structure ForestState where
  find : ℕ → ℕ
  forest : List Edge
  candidates : List Edge

/-- Initial builder state: every node is its own representative. -/
def forestInit : ForestState :=
  ⟨fun x => x, [], []⟩

/-- Modelled from the spec (4.3 Spanning Forest Builder): an edge joins the
forest iff `dsuUnion` reports a merge, otherwise it joins the candidate
set. -/
def forestStep (st : ForestState) (e : Edge) : ForestState :=
  let p := dsuUnion st.find e.1 e.2
  if p.2 then ⟨p.1, e :: st.forest, st.candidates⟩
  else ⟨p.1, st.forest, e :: st.candidates⟩

/-- Modelled from the spec (4.3): iterate the edges in input order through
the union-find, partitioning them into forest and candidate edges. -/
def buildForest (edges : List Edge) : ForestState :=
  edges.foldl forestStep forestInit

/-- The union-find invariant: representative equality coincides with
connectivity over the forest collected so far. -/
def DSUInv (f : ℕ → ℕ) (F : List Edge) : Prop :=
  ∀ x y, f x = f y ↔ connected F x y

/-- The candidate invariant: every candidate edge already has its endpoints
connected through the forest. -/
def CandInv (F C : List Edge) : Prop :=
  ∀ p ∈ C, connected F p.1 p.2

theorem forestStep_of_same {st : ForestState} {e : Edge}
    (hab : st.find e.1 = st.find e.2) :
    forestStep st e = ⟨st.find, st.forest, e :: st.candidates⟩ := by
  simp [forestStep, dsuUnion, hab]

theorem forestStep_of_diff {st : ForestState} {e : Edge}
    (hab : st.find e.1 ≠ st.find e.2) :
    forestStep st e =
      ⟨fun x => if st.find x = st.find e.2 then st.find e.1 else st.find x,
        e :: st.forest, st.candidates⟩ := by
  simp [forestStep, dsuUnion, hab]

theorem dsuUnion_inv {f : ℕ → ℕ} {F : List Edge} (h1 : DSUInv f F) {e : Edge}
    (hab : f e.1 ≠ f e.2) :
    DSUInv (fun x => if f x = f e.2 then f e.1 else f x) (e :: F) := by
  intro x y
  rw [connected_cons]
  simp only
  constructor
  · intro hxy
    by_cases hxb : f x = f e.2 <;> by_cases hyb : f y = f e.2
    · exact Or.inl (((h1 x e.2).1 hxb).trans ((h1 y e.2).1 hyb).symm)
    · rw [if_pos hxb, if_neg hyb] at hxy
      exact Or.inr (Or.inr ⟨(h1 x e.2).1 hxb, (h1 e.1 y).1 hxy⟩)
    · rw [if_neg hxb, if_pos hyb] at hxy
      exact Or.inr (Or.inl ⟨(h1 x e.1).1 hxy, ((h1 y e.2).1 hyb).symm⟩)
    · rw [if_neg hxb, if_neg hyb] at hxy
      exact Or.inl ((h1 x y).1 hxy)
  · rintro (h | ⟨hx1, hy2⟩ | ⟨hx2, hy1⟩)
    · have hfxy : f x = f y := (h1 x y).2 h
      by_cases hxb : f x = f e.2
      · rw [if_pos hxb, if_pos (hfxy.symm.trans hxb)]
      · rw [if_neg hxb, if_neg (fun hh => hxb (hfxy.trans hh))]
        exact hfxy
    · have hfx : f x = f e.1 := (h1 x e.1).2 hx1
      have hfy : f y = f e.2 := (h1 y e.2).2 hy2.symm
      rw [if_neg (fun hh => hab (hfx.symm.trans hh)), if_pos hfy]
      exact hfx
    · have hfx : f x = f e.2 := (h1 x e.2).2 hx2
      have hfy : f y = f e.1 := (h1 y e.1).2 hy1.symm
      rw [if_pos hfx, if_neg (fun hh => hab (hfy.symm.trans hh))]
      exact hfy.symm

theorem forestStep_inv (st : ForestState) (e : Edge)
    (h1 : DSUInv st.find st.forest) (h2 : CandInv st.forest st.candidates) :
    DSUInv (forestStep st e).find (forestStep st e).forest ∧
      CandInv (forestStep st e).forest (forestStep st e).candidates ∧
      List.Perm ((forestStep st e).forest ++ (forestStep st e).candidates)
        (e :: (st.forest ++ st.candidates)) := by
  by_cases hab : st.find e.1 = st.find e.2
  · rw [forestStep_of_same hab]
    refine ⟨h1, ?_, ?_⟩
    · intro p hp
      rcases List.mem_cons.1 hp with rfl | hp
      · exact (h1 p.1 p.2).1 hab
      · exact h2 p hp
    · exact List.perm_middle
  · rw [forestStep_of_diff hab]
    refine ⟨dsuUnion_inv h1 hab, ?_, List.Perm.refl _⟩
    intro p hp
    exact connected_mono (fun q hq => List.mem_cons_of_mem _ hq) (h2 p hp)

theorem buildForestAux (edges : List Edge) (st : ForestState)
    (h1 : DSUInv st.find st.forest) (h2 : CandInv st.forest st.candidates) :
    DSUInv (edges.foldl forestStep st).find (edges.foldl forestStep st).forest ∧
      CandInv (edges.foldl forestStep st).forest
        (edges.foldl forestStep st).candidates ∧
      List.Perm ((edges.foldl forestStep st).forest ++
          (edges.foldl forestStep st).candidates)
        ((st.forest ++ st.candidates) ++ edges) := by
  induction edges generalizing st with
  | nil => exact ⟨h1, h2, by simp⟩
  | cons e rest ih =>
    obtain ⟨g1, g2, g3⟩ := forestStep_inv st e h1 h2
    obtain ⟨r1, r2, r3⟩ := ih (forestStep st e) g1 g2
    refine ⟨r1, r2, ?_⟩
    simp only [List.foldl_cons]
    refine r3.trans ((g3.append_right rest).trans ?_)
    simpa using (@List.perm_middle _ e (st.forest ++ st.candidates) rest).symm

theorem buildForest_dsuInv (edges : List Edge) :
    DSUInv (buildForest edges).find (buildForest edges).forest :=
  (buildForestAux edges forestInit
    (fun x y => by simpa [forestInit] using (@connected_nil x y).symm)
    (fun p hp => by simp [forestInit] at hp)).1

theorem buildForest_candInv (edges : List Edge) :
    CandInv (buildForest edges).forest (buildForest edges).candidates :=
  (buildForestAux edges forestInit
    (fun x y => by simpa [forestInit] using (@connected_nil x y).symm)
    (fun p hp => by simp [forestInit] at hp)).2.1

theorem buildForest_perm (edges : List Edge) :
    List.Perm ((buildForest edges).forest ++ (buildForest edges).candidates)
      edges := by
  have h := (buildForestAux edges forestInit
    (fun x y => by simpa [forestInit] using (@connected_nil x y).symm)
    (fun p hp => by simp [forestInit] at hp)).2.2
  simpa [forestInit] using h

theorem buildForest_forest_subset (edges : List Edge) :
    ∀ e ∈ (buildForest edges).forest, e ∈ edges := by
  intro e he
  exact (buildForest_perm edges).subset (List.mem_append_left _ he)

theorem buildForest_candidates_subset (edges : List Edge) :
    ∀ e ∈ (buildForest edges).candidates, e ∈ edges := by
  intro e he
  exact (buildForest_perm edges).subset (List.mem_append_right _ he)

/-- The design rationale of spec 4.3: the forest alone carries the full
connectivity of the input edge list. -/
theorem connected_buildForest (edges : List Edge) (a b : ℕ) :
    connected (buildForest edges).forest a b ↔ connected edges a b := by
  constructor
  · exact connected_mono (buildForest_forest_subset edges)
  · refine connected_le ?_
    intro e he
    rcases (buildForest_perm edges).symm.subset he |> List.mem_append.1 with hf | hc
    · exact connected_of_mem hf
    · exact buildForest_candInv edges e hc

/-- Connected-component count of the edge list over a node list: the number
of distinct union-find representatives among the nodes (spec 4.2: for a
graph with k connected components, exactly k representatives remain). -/
def componentCount (nodes : List ℕ) (edges : List Edge) : ℕ :=
  ((nodes.map (buildForest edges).find).dedup).length

/-- Two labelling maps that induce the same partition have the same number
of distinct values on any node list. -/
theorem dedup_length_map_eq {f g : ℕ → ℕ}
    (h : ∀ x y, f x = f y ↔ g x = g y) (nodes : List ℕ) :
    ((nodes.map f).dedup).length = ((nodes.map g).dedup).length := by
  induction nodes with
  | nil => rfl
  | cons a l ih =>
    have hmem : f a ∈ l.map f ↔ g a ∈ l.map g := by
      simp only [List.mem_map]
      constructor
      · rintro ⟨b, hb, hfb⟩
        exact ⟨b, hb, (h b a).1 hfb⟩
      · rintro ⟨b, hb, hgb⟩
        exact ⟨b, hb, (h b a).2 hgb⟩
    by_cases hfa : f a ∈ l.map f
    · rw [List.map_cons, List.map_cons, List.dedup_cons_of_mem hfa,
        List.dedup_cons_of_mem (hmem.1 hfa)]
      exact ih
    · rw [List.map_cons, List.map_cons, List.dedup_cons_of_not_mem hfa,
        List.dedup_cons_of_not_mem (fun hga => hfa (hmem.2 hga))]
      simpa using ih

/-- Edge lists with the same connectivity relation have the same component
count. -/
theorem componentCount_eq_of_connected_iff {E F : List Edge}
    (h : ∀ a b, connected E a b ↔ connected F a b) (nodes : List ℕ) :
    componentCount nodes E = componentCount nodes F := by
  apply dedup_length_map_eq
  intro x y
  rw [buildForest_dsuInv E x y, buildForest_dsuInv F x y,
    connected_buildForest, connected_buildForest]
  exact h x y

/-- Modelled from the spec (2, 5): the seeded random stream is an explicit
linear congruential generator threaded through the sampling calls. -/
def lcg (s : ℕ) : ℕ :=
  (s * 1103515245 + 12345) % 2147483648

/-- Modelled from the spec (4.4): seeded uniform random permutation,
Fisher-Yates style, by repeatedly extracting the element at a
stream-chosen index.  The fuel argument equals the list length. -/
def shuffleGo : ℕ → ℕ → List Edge → List Edge
  | 0, _, _ => []
  | _ + 1, _, [] => []
  | n + 1, s, x :: xs =>
    let l := x :: xs
    let i := s % l.length
    l.getD i (0, 0) :: shuffleGo n (lcg s) (l.eraseIdx i)

/-- Modelled from the spec (4.4): seeded uniform random permutation of the
candidate list. -/
def shuffle (s : ℕ) (l : List Edge) : List Edge :=
  shuffleGo l.length s l

theorem shuffleGo_perm :
    ∀ (n : ℕ) (l : List Edge), l.length ≤ n → ∀ s : ℕ,
      List.Perm (shuffleGo n s l) l := by
  intro n
  induction n with
  | zero =>
    intro l hl s
    rw [Nat.le_zero] at hl
    rw [List.length_eq_zero] at hl
    subst hl
    exact List.Perm.refl _
  | succ n ih =>
    intro l hl s
    match l with
    | [] => exact List.Perm.refl _
    | x :: xs =>
      set m := (x :: xs) with hm
      have hlen : 0 < m.length := by simp [hm]
      have hi : s % m.length < m.length := Nat.mod_lt _ hlen
      have hgetD : m.getD (s % m.length) (0, 0) = m[s % m.length] :=
        List.getD_eq_getElem m (0, 0) hi
      have hlen2 : (m.eraseIdx (s % m.length)).length ≤ n := by
        have := List.length_eraseIdx_add_one hi
        omega
      have hrec := ih (m.eraseIdx (s % m.length)) hlen2 (lcg s)
      have hperm : List.Perm m (m[s % m.length] :: m.eraseIdx (s % m.length)) :=
        (List.perm_cons_erase (List.getElem_mem hi)).trans
          ((List.erase_getElem hi).cons _)
      show List.Perm (m.getD (s % m.length) (0, 0) ::
        shuffleGo n (lcg s) (m.eraseIdx (s % m.length))) m
      rw [hgetD]
      exact (hrec.cons _).trans hperm.symm

theorem shuffle_perm (s : ℕ) (l : List Edge) : List.Perm (shuffle s l) l :=
  shuffleGo_perm l.length l le_rfl s

theorem shuffle_length (s : ℕ) (l : List Edge) :
    (shuffle s l).length = l.length :=
  (shuffle_perm s l).length_eq

/-- Draw one node id from the node list using the random stream value. -/
def drawNode (nodes : List ℕ) (s : ℕ) : ℕ :=
  nodes.getD (s / 65536 % nodes.length) 0

/-- The O(1)-lookup membership test over the existing edge list. -/
def isEdgeOf (E : List Edge) (a b : ℕ) : Bool :=
  decide ((a, b) ∈ E)

/-- Modelled from the spec (4.5 Negative Sampler): repeatedly draw two node
ids; accept the pair iff the two ids differ, the pair is absent from the
edge lookup in both directions, and the pair was not already emitted as a
negative edge in any split this run (both orientations, global dedup).
The fuel argument is the retry cap; quota is the number of pairs still to
emit for the current split.  Returns the split list, the updated global
emitted list, and the advanced stream. -/
def fillQuota (nodes : List ℕ) (isEdge : ℕ → ℕ → Bool) :
    ℕ → ℕ → ℕ → List Edge → Option (List Edge × List Edge × ℕ)
  | _, seed, 0, emitted => some ([], emitted, seed)
  | 0, _, _ + 1, _ => none
  | fuel + 1, seed, quota + 1, emitted =>
    let a := drawNode nodes seed
    let s1 := lcg seed
    let b := drawNode nodes s1
    let s2 := lcg s1
    if a ≠ b ∧ isEdge a b = false ∧ isEdge b a = false ∧
        (a, b) ∉ emitted ∧ (b, a) ∉ emitted then
      match fillQuota nodes isEdge fuel s2 quota ((a, b) :: emitted) with
      | some (acc, em, sf) => some ((a, b) :: acc, em, sf)
      | none => none
    else
      fillQuota nodes isEdge fuel s2 (quota + 1) emitted

/-- Modelled from the spec (4.5): the documented retry bound, a large fixed
multiple of the remaining quota. -/
def retryCap (quota : ℕ) : ℕ :=
  100 * quota

/-- Modelled from the spec (4.5): fill the train, test and validation
negative quotas in order, threading the stream and the global emitted list;
fail (`none`) when a retry cap is exhausted. -/
def sampleNegative (nodes : List ℕ) (isEdge : ℕ → ℕ → Bool)
    (qTrain qTest qValid seed : ℕ) :
    Option (List Edge × List Edge × List Edge) :=
  match fillQuota nodes isEdge (retryCap qTrain) seed qTrain [] with
  | none => none
  | some (negTrain, em1, s1) =>
    match fillQuota nodes isEdge (retryCap qTest) s1 qTest em1 with
    | none => none
    | some (negTest, em2, s2) =>
      match fillQuota nodes isEdge (retryCap qValid) s2 qValid em2 with
      | none => none
      | some (negValid, _, _) => some (negTrain, negTest, negValid)

/-- On success a quota is filled exactly, every accepted pair passed the
acceptance checks, and the new emitted list is the accepted pairs on top of
the old one. -/
theorem fillQuota_spec (nodes : List ℕ) (isEdge : ℕ → ℕ → Bool) :
    ∀ (fuel seed quota : ℕ) (emitted acc em : List Edge) (sf : ℕ),
      fillQuota nodes isEdge fuel seed quota emitted = some (acc, em, sf) →
      acc.length = quota ∧
        (∀ p ∈ acc, p.1 ≠ p.2 ∧ isEdge p.1 p.2 = false ∧
          isEdge p.2 p.1 = false) ∧
        em = acc.reverse ++ emitted ∧
        acc.Pairwise (fun p q => p ≠ q ∧ p ≠ (q.2, q.1)) ∧
        (∀ p ∈ acc, p ∉ emitted ∧ (p.2, p.1) ∉ emitted) := by
  intro fuel
  induction fuel with
  | zero =>
    intro seed quota emitted acc em sf h
    match quota with
    | 0 =>
      simp only [fillQuota, Option.some.injEq, Prod.mk.injEq] at h
      obtain ⟨h1, h2, h3⟩ := h
      subst h1; subst h2; subst h3
      simp
    | q + 1 => simp [fillQuota] at h
  | succ fuel ih =>
    intro seed quota emitted acc em sf h
    match quota with
    | 0 =>
      simp only [fillQuota, Option.some.injEq, Prod.mk.injEq] at h
      obtain ⟨h1, h2, h3⟩ := h
      subst h1; subst h2; subst h3
      simp
    | q + 1 =>
      rw [fillQuota] at h
      set a := drawNode nodes seed with ha
      set b := drawNode nodes (lcg seed) with hb
      by_cases hacc : a ≠ b ∧ isEdge a b = false ∧ isEdge b a = false ∧
          (a, b) ∉ emitted ∧ (b, a) ∉ emitted
      · rw [if_pos hacc] at h
        match hrec : fillQuota nodes isEdge fuel (lcg (lcg seed)) q
            ((a, b) :: emitted) with
        | none => rw [hrec] at h; exact absurd h (by simp)
        | some (acc0, em0, sf0) =>
          rw [hrec] at h
          simp only [Option.some.injEq, Prod.mk.injEq] at h
          obtain ⟨h1, h2, h3⟩ := h
          obtain ⟨g1, g2, g3, g4, g5⟩ := ih _ _ _ _ _ _ hrec
          subst h1
          constructor
          · simp [g1]
          refine ⟨?_, ?_, ?_, ?_⟩
          · intro p hp
            rcases List.mem_cons.1 hp with rfl | hp
            · exact ⟨hacc.1, hacc.2.1, hacc.2.2.1⟩
            · exact g2 p hp
          · rw [← h2, g3]
            simp
          · rw [List.pairwise_cons]
            refine ⟨?_, g4⟩
            intro q hq
            have hq1 := (g5 q hq).1
            have hq2 := (g5 q hq).2
            simp only [List.mem_cons] at hq1 hq2
            constructor
            · intro hcontra
              exact hq1 (Or.inl hcontra.symm)
            · intro hcontra
              apply hq2
              left
              rw [hcontra]
          · intro p hp
            rcases List.mem_cons.1 hp with rfl | hp
            · exact ⟨hacc.2.2.2.1, hacc.2.2.2.2⟩
            · have hp1 := (g5 p hp).1
              have hp2 := (g5 p hp).2
              simp only [List.mem_cons] at hp1 hp2
              exact ⟨fun hh => hp1 (Or.inr hh), fun hh => hp2 (Or.inr hh)⟩
      · rw [if_neg hacc] at h
        obtain ⟨g1, g2, g3, g4, g5⟩ := ih _ _ _ _ _ _ h
        exact ⟨g1, g2, g3, g4, g5⟩

theorem drawNode_mem {nodes : List ℕ} (hne : nodes ≠ []) (s : ℕ) :
    drawNode nodes s ∈ nodes := by
  have hlen : 0 < nodes.length := List.length_pos.2 hne
  have hi : s / 65536 % nodes.length < nodes.length := Nat.mod_lt _ hlen
  rw [drawNode, List.getD_eq_getElem nodes 0 hi]
  exact List.getElem_mem hi

/-- When every distinct pair of nodes is an existing edge, no draw is ever
accepted, so a positive quota exhausts its retry cap. -/
theorem fillQuota_none_of_complete {nodes : List ℕ} {isEdge : ℕ → ℕ → Bool}
    (hcomp : ∀ a ∈ nodes, ∀ b ∈ nodes, a ≠ b →
      ¬(isEdge a b = false ∧ isEdge b a = false)) :
    ∀ (fuel seed q : ℕ) (emitted : List Edge),
      fillQuota nodes isEdge fuel seed (q + 1) emitted = none := by
  intro fuel
  induction fuel with
  | zero =>
    intro seed q emitted
    rfl
  | succ fuel ih =>
    intro seed q emitted
    rw [fillQuota]
    rw [if_neg]
    · exact ih _ _ _
    · rintro ⟨h1, h2, h3, -, -⟩
      by_cases hne : nodes = []
      · subst hne
        exact h1 (by simp [drawNode])
      · exact hcomp _ (drawNode_mem hne seed) _ (drawNode_mem hne (lcg seed))
          h1 ⟨h2, h3⟩

/-- The negative sampler fails (rather than looping) on a complete graph
whenever any split quota is positive. -/
theorem sampleNegative_none_of_complete {nodes : List ℕ}
    {isEdge : ℕ → ℕ → Bool}
    (hcomp : ∀ a ∈ nodes, ∀ b ∈ nodes, a ≠ b →
      ¬(isEdge a b = false ∧ isEdge b a = false))
    (q1 q2 q3 seed : ℕ) (hq : 1 ≤ q1 + q2 + q3) :
    sampleNegative nodes isEdge q1 q2 q3 seed = none := by
  rw [sampleNegative]
  match q1 with
  | qq + 1 =>
    rw [fillQuota_none_of_complete hcomp]
  | 0 =>
    show (match fillQuota nodes isEdge (retryCap 0) seed 0 [] with
      | none => none
      | some (negTrain, em1, s1) => _) = none
    rw [show fillQuota nodes isEdge (retryCap 0) seed 0 [] =
      some ([], [], seed) from rfl]
    simp only
    match q2 with
    | qq + 1 =>
      rw [fillQuota_none_of_complete hcomp]
    | 0 =>
      rw [show fillQuota nodes isEdge (retryCap 0) seed 0 [] =
        some ([], [], seed) from rfl]
      simp only
      match q3, hq with
      | qq + 1, _ =>
        rw [fillQuota_none_of_complete hcomp]

/-- Success spec of the negative sampler: quotas are filled exactly, every
pair passes the validity checks, and no unordered pair repeats across the
three emitted splits. -/
theorem sampleNegative_spec {nodes : List ℕ} {isEdge : ℕ → ℕ → Bool}
    {q1 q2 q3 seed : ℕ} {nT nE nV : List Edge}
    (h : sampleNegative nodes isEdge q1 q2 q3 seed = some (nT, nE, nV)) :
    nT.length = q1 ∧ nE.length = q2 ∧ nV.length = q3 ∧
      (∀ p ∈ nT ++ nE ++ nV, p.1 ≠ p.2 ∧ isEdge p.1 p.2 = false ∧
        isEdge p.2 p.1 = false) ∧
      (nT ++ nE ++ nV).Pairwise (fun p q => p ≠ q ∧ p ≠ (q.2, q.1)) := by
  rw [sampleNegative] at h
  cases hf1 : fillQuota nodes isEdge (retryCap q1) seed q1 [] with
  | none => rw [hf1] at h; exact absurd h (by simp)
  | some t1 =>
    obtain ⟨nT0, em1, s1⟩ := t1
    rw [hf1] at h
    simp only at h
    cases hf2 : fillQuota nodes isEdge (retryCap q2) s1 q2 em1 with
    | none => rw [hf2] at h; exact absurd h (by simp)
    | some t2 =>
      obtain ⟨nE0, em2, s2⟩ := t2
      rw [hf2] at h
      simp only at h
      cases hf3 : fillQuota nodes isEdge (retryCap q3) s2 q3 em2 with
      | none => rw [hf3] at h; exact absurd h (by simp)
      | some t3 =>
        obtain ⟨nV0, em3, s3⟩ := t3
        rw [hf3] at h
        simp only [Option.some.injEq, Prod.mk.injEq] at h
        obtain ⟨hT, hE, hV⟩ := h
        subst hT; subst hE; subst hV
        obtain ⟨a1, a2, a3, a4, a5⟩ := fillQuota_spec nodes isEdge _ _ _ _ _ _ _ hf1
        obtain ⟨b1, b2, b3, b4, b5⟩ := fillQuota_spec nodes isEdge _ _ _ _ _ _ _ hf2
        obtain ⟨c1, c2, c3, c4, c5⟩ := fillQuota_spec nodes isEdge _ _ _ _ _ _ _ hf3
        refine ⟨a1, b1, c1, ?_, ?_⟩
        · intro p hp
          simp only [List.mem_append] at hp
          rcases hp with (hp | hp) | hp
          · exact a2 p hp
          · exact b2 p hp
          · exact c2 p hp
        · -- freshness of the later splits against the earlier emitted lists
          have hEfresh : ∀ q ∈ nE0, ∀ p ∈ nT0, p ≠ q ∧ p ≠ (q.2, q.1) := by
            intro q hq p hp
            have h5 := b5 q hq
            rw [a3] at h5
            simp only [List.append_nil, List.mem_reverse] at h5
            exact ⟨fun hh => h5.1 (hh ▸ hp), fun hh => h5.2 (hh ▸ hp)⟩
          have hVfresh : ∀ q ∈ nV0, ∀ p, p ∈ nT0 ∨ p ∈ nE0 →
              p ≠ q ∧ p ≠ (q.2, q.1) := by
            intro q hq p hp
            have h5 := c5 q hq
            rw [b3, a3] at h5
            simp only [List.append_nil, List.mem_append, List.mem_reverse] at h5
            have hpmem : p ∈ nE0 ∨ p ∈ nT0 := hp.symm
            constructor
            · intro hh
              exact h5.1 (hh ▸ hpmem)
            · intro hh
              exact h5.2 (hh ▸ hpmem)
          rw [List.pairwise_append]
          refine ⟨?_, c4, ?_⟩
          · rw [List.pairwise_append]
            refine ⟨a4, b4, ?_⟩
            intro p hp q hq
            exact hEfresh q hq p hp
          · intro p hp q hq
            simp only [List.mem_append] at hp
            exact hVfresh q hq p hp

/-- Modelled from the spec (3 Data Model): the in-memory graph is the node
id list together with the edge list. -/
structure Graph where
  nodes : List ℕ
  edges : List Edge
deriving DecidableEq

/-- Modelled from the spec (7 Error Handling Design): the error kinds the
holdout pipeline itself can raise. -/
inductive HoldoutError where
  | invalidArgument
  | insufficientCandidates
  | negativeSamplingExhausted
deriving DecidableEq

/-- Modelled from the spec (3): the holdout split emitted on success. -/
structure HoldoutSplit where
  trainEdges : List Edge
  posTest : List Edge
  posValid : List Edge
  negTrain : List Edge
  negTest : List Edge
  negValid : List Edge
deriving DecidableEq

/-- Modelled from the spec (4.4): the target positive holdout count
`k = round((1 - train_fraction) * number of edges)`, rounding half up. -/
def holdoutCount (tf : ℚ) (numEdges : ℕ) : ℕ :=
  (⌊(1 - tf) * (numEdges : ℚ) + 1 / 2⌋).toNat

/-- The positive holdout edges: the seeded permutation of the candidate set
truncated to the first `k` elements (spec 4.4). -/
def selectedOf (g : Graph) (k seed : ℕ) : List Edge :=
  (shuffle seed (buildForest g.edges).candidates).take k

/-- How many of the `k` selected holdouts go to the test split:
`ceil(k/2)` when validation is requested, all of them otherwise
(spec 4.4). -/
def nTestOf (k : ℕ) (validation : Bool) : ℕ :=
  if validation then (k + 1) / 2 else k

/-- Modelled from the spec (4.4, 4.5, 2): the holdout pipeline after the
target count `k` has been computed.  Draw `k` positive holdouts from the
candidate set (failing when there are fewer than `k` candidates), split
them into test and validation, remove them from the training edges, then
sample the matching negative counts (train mirrors the training edge
count, test and validation mirror the positive splits). -/
def makeHoldoutsCore (g : Graph) (k : ℕ) (validation : Bool) (seed : ℕ) :
    Except HoldoutError HoldoutSplit :=
  if k ≤ (buildForest g.edges).candidates.length then
    let selected := selectedOf g k seed
    let posTest := selected.take (nTestOf k validation)
    let posValid := selected.drop (nTestOf k validation)
    let trainEdges := g.edges.filter (fun e => decide (e ∉ selected))
    match sampleNegative g.nodes (isEdgeOf g.edges) trainEdges.length
        posTest.length posValid.length (lcg seed) with
    | none => Except.error HoldoutError.negativeSamplingExhausted
    | some (nT, nE, nV) =>
      Except.ok ⟨trainEdges, posTest, posValid, nT, nE, nV⟩
  else Except.error HoldoutError.insufficientCandidates

/-- Modelled from the spec (4.4): validate `train_fraction` first (fail
fast), then run the pipeline with `k = round((1 - train_fraction) * |E|)`.
-/
def makeHoldouts (g : Graph) (trainFraction : ℚ) (validation : Bool)
    (seed : ℕ) : Except HoldoutError HoldoutSplit :=
  if 0 < trainFraction ∧ trainFraction ≤ 1 then
    makeHoldoutsCore g (holdoutCount trainFraction g.edges.length)
      validation seed
  else Except.error HoldoutError.invalidArgument

theorem makeHoldoutsCore_ok_inv {g : Graph} {k : ℕ} {v : Bool} {seed : ℕ}
    {res : HoldoutSplit}
    (h : makeHoldoutsCore g k v seed = Except.ok res) :
    k ≤ (buildForest g.edges).candidates.length ∧
      res.posTest = (selectedOf g k seed).take (nTestOf k v) ∧
      res.posValid = (selectedOf g k seed).drop (nTestOf k v) ∧
      res.trainEdges =
        g.edges.filter (fun e => decide (e ∉ selectedOf g k seed)) ∧
      sampleNegative g.nodes (isEdgeOf g.edges) res.trainEdges.length
          res.posTest.length res.posValid.length (lcg seed) =
        some (res.negTrain, res.negTest, res.negValid) := by
  rw [makeHoldoutsCore] at h
  by_cases h2 : k ≤ (buildForest g.edges).candidates.length
  · rw [if_pos h2] at h
    simp only at h
    cases hs : sampleNegative g.nodes (isEdgeOf g.edges)
        (g.edges.filter (fun e => decide (e ∉ selectedOf g k seed))).length
        ((selectedOf g k seed).take (nTestOf k v)).length
        ((selectedOf g k seed).drop (nTestOf k v)).length (lcg seed) with
    | none => rw [hs] at h; exact absurd h (by simp)
    | some t =>
      obtain ⟨nT, nE, nV⟩ := t
      rw [hs] at h
      simp only [Except.ok.injEq] at h
      subst h
      exact ⟨h2, rfl, rfl, rfl, hs⟩
  · rw [if_neg h2] at h
    exact absurd h (by simp)

theorem makeHoldouts_ok_inv {g : Graph} {tf : ℚ} {v : Bool} {seed : ℕ}
    {res : HoldoutSplit} (h : makeHoldouts g tf v seed = Except.ok res) :
    (0 < tf ∧ tf ≤ 1) ∧
      makeHoldoutsCore g (holdoutCount tf g.edges.length) v seed =
        Except.ok res := by
  rw [makeHoldouts] at h
  by_cases h1 : 0 < tf ∧ tf ≤ 1
  · rw [if_pos h1] at h
    exact ⟨h1, h⟩
  · rw [if_neg h1] at h
    exact absurd h (by simp)


instance : DecidableEq (Except HoldoutError HoldoutSplit) := fun a b =>
  match a, b with
  | Except.ok x, Except.ok y => decidable_of_iff (x = y) (by simp)
  | Except.error x, Except.error y => decidable_of_iff (x = y) (by simp)
  | Except.ok _, Except.error _ => isFalse (fun hh => by cases hh)
  | Except.error _, Except.ok _ => isFalse (fun hh => by cases hh)

theorem holdoutCount_eq {tf : ℚ} {n k : ℕ}
    (h : (k : ℚ) ≤ (1 - tf) * (n : ℚ) + 1 / 2 ∧
      (1 - tf) * (n : ℚ) + 1 / 2 < (k : ℚ) + 1) :
    holdoutCount tf n = k := by
  rw [holdoutCount]
  rw [show ⌊(1 - tf) * (n : ℚ) + 1 / 2⌋ = (k : ℤ) from ?_]
  · exact Int.toNat_natCast k
  · rw [Int.floor_eq_iff]
    exact ⟨by exact_mod_cast h.1, by exact_mod_cast h.2⟩

theorem makeHoldouts_eq_core {g : Graph} {tf : ℚ} {v : Bool} {seed k : ℕ}
    (htf : 0 < tf ∧ tf ≤ 1) (hk : holdoutCount tf g.edges.length = k) :
    makeHoldouts g tf v seed = makeHoldoutsCore g k v seed := by
  rw [makeHoldouts, if_pos htf, hk]

theorem selectedOf_subset_candidates (g : Graph) (k seed : ℕ) :
    ∀ e ∈ selectedOf g k seed, e ∈ (buildForest g.edges).candidates := by
  intro e he
  exact (shuffle_perm seed _).subset (List.take_subset _ _ he)

theorem selectedOf_length {g : Graph} {k : ℕ} (seed : ℕ)
    (hk : k ≤ (buildForest g.edges).candidates.length) :
    (selectedOf g k seed).length = k := by
  rw [selectedOf, List.length_take, shuffle_length]
  exact min_eq_left hk

theorem selectedOf_nodup {g : Graph} (k seed : ℕ) (hnd : g.edges.Nodup) :
    (selectedOf g k seed).Nodup := by
  have h1 : ((buildForest g.edges).forest ++
      (buildForest g.edges).candidates).Nodup :=
    ((buildForest_perm g.edges).nodup_iff).2 hnd
  have h2 : (buildForest g.edges).candidates.Nodup :=
    (List.nodup_append.1 h1).2.1
  have h3 : (shuffle seed (buildForest g.edges).candidates).Nodup :=
    ((shuffle_perm seed _).nodup_iff).2 h2
  exact h3.sublist (List.take_sublist _ _)

theorem forest_disjoint_candidates {g : Graph} (hnd : g.edges.Nodup) :
    List.Disjoint (buildForest g.edges).forest
      (buildForest g.edges).candidates := by
  have h1 : ((buildForest g.edges).forest ++
      (buildForest g.edges).candidates).Nodup :=
    ((buildForest_perm g.edges).nodup_iff).2 hnd
  exact (List.nodup_append.1 h1).2.2

theorem forest_subset_train {g : Graph} {k seed : ℕ} (hnd : g.edges.Nodup) :
    ∀ e ∈ (buildForest g.edges).forest,
      e ∈ g.edges.filter (fun e => decide (e ∉ selectedOf g k seed)) := by
  intro e he
  rw [List.mem_filter]
  refine ⟨buildForest_forest_subset _ _ he, ?_⟩
  rw [decide_eq_true_iff]
  intro hsel
  exact forest_disjoint_candidates hnd he
    (selectedOf_subset_candidates g k seed e hsel)

/-- Removing the selected candidate edges does not change connectivity. -/
theorem connected_train_iff {g : Graph} {k seed : ℕ} (hnd : g.edges.Nodup)
    (a b : ℕ) :
    connected (g.edges.filter (fun e => decide (e ∉ selectedOf g k seed))) a b
      ↔ connected g.edges a b := by
  constructor
  · exact connected_mono (fun e he => (List.mem_filter.1 he).1)
  · intro h
    exact connected_mono (forest_subset_train hnd)
      ((connected_buildForest g.edges a b).2 h)

theorem filter_partition_perm (p : Edge → Bool) (l : List Edge) :
    List.Perm (l.filter p ++ l.filter (fun e => !p e)) l := by
  induction l with
  | nil => simp
  | cons a l ih =>
    by_cases ha : p a
    · simp only [List.filter_cons, ha, Bool.not_true, cond_true, cond_false,
        ite_true, ite_false, if_pos, Bool.false_eq_true, List.cons_append]
      exact ih.cons a
    · have ha2 : p a = false := by simpa using ha
      simp only [List.filter_cons, ha2, Bool.not_false, ite_true, ite_false,
        Bool.false_eq_true, List.cons_append]
      exact List.perm_middle.trans (ih.cons a)

theorem isEdgeOf_eq_false {E : List Edge} {a b : ℕ} :
    isEdgeOf E a b = false ↔ (a, b) ∉ E := by
  simp [isEdgeOf]

/-- The node list of the cycle graph on six nodes, used as a concrete
successful run. -/
def cycleGraph6 : Graph :=
  ⟨[0, 1, 2, 3, 4, 5], [(0,1), (1,2), (2,3), (3,4), (4,5), (5,0)]⟩

/-- The split produced by the pipeline on `cycleGraph6` with
train_fraction 4/5, no validation, seed 1. -/
def cycleRun6 : HoldoutSplit :=
  ⟨[(0,1), (1,2), (2,3), (3,4), (4,5)], [(5,0)], [],
   [(2,4), (3,1), (1,5), (0,3), (5,3)], [(2,5)], []⟩

theorem cycleRun6_eq :
    makeHoldouts cycleGraph6 (4/5) false 1 = Except.ok cycleRun6 :=
  (makeHoldouts_eq_core (by norm_num)
    (@holdoutCount_eq (4/5) 6 1 (by norm_num))).trans (by decide)

/-- C1: on every successful holdout run over a simple (duplicate-free)
edge list, the connected-component count of the returned training edge set
equals the connected-component count of the original edge set: removing
the selected test/validation edges never disconnects the graph. -/
theorem holdouts_preserve_component_count (g : Graph) (tf : ℚ) (v : Bool)
    (seed : ℕ) (res : HoldoutSplit) (hnd : g.edges.Nodup)
    (h : makeHoldouts g tf v seed = Except.ok res) :
    componentCount g.nodes res.trainEdges = componentCount g.nodes g.edges := by
  obtain ⟨-, hcore⟩ := makeHoldouts_ok_inv h
  obtain ⟨-, -, -, htr, -⟩ := makeHoldoutsCore_ok_inv hcore
  rw [htr]
  exact componentCount_eq_of_connected_iff (connected_train_iff hnd) g.nodes

theorem holdouts_preserve_component_count_witness :
    cycleGraph6.edges.Nodup ∧
      componentCount cycleGraph6.nodes cycleRun6.trainEdges =
        componentCount cycleGraph6.nodes cycleGraph6.edges :=
  ⟨by decide, holdouts_preserve_component_count cycleGraph6 (4/5) false 1
    cycleRun6 (by decide) cycleRun6_eq⟩

/-- C2: on every successful holdout run over a simple edge list, the
training, positive-test and positive-validation sets are pairwise disjoint
and together are exactly the original edge set. -/
theorem holdouts_partition (g : Graph) (tf : ℚ) (v : Bool) (seed : ℕ)
    (res : HoldoutSplit) (hnd : g.edges.Nodup)
    (h : makeHoldouts g tf v seed = Except.ok res) :
    List.Perm (res.trainEdges ++ (res.posTest ++ res.posValid)) g.edges ∧
      List.Disjoint res.trainEdges res.posTest ∧
      List.Disjoint res.trainEdges res.posValid ∧
      List.Disjoint res.posTest res.posValid := by
  obtain ⟨-, hcore⟩ := makeHoldouts_ok_inv h
  obtain ⟨hk, hpt, hpv, htr, -⟩ := makeHoldoutsCore_ok_inv hcore
  set k := holdoutCount tf g.edges.length with hkdef
  set sel := selectedOf g k seed with hseldef
  have hjoin : res.posTest ++ res.posValid = sel := by
    rw [hpt, hpv, List.take_append_drop]
  have hselsub : ∀ e ∈ sel, e ∈ g.edges := fun e he =>
    buildForest_candidates_subset g.edges e
      (selectedOf_subset_candidates g k seed e he)
  have hselnd : sel.Nodup := selectedOf_nodup k seed hnd
  have hfsel : List.Perm (g.edges.filter (fun e => decide (e ∈ sel))) sel := by
    apply List.perm_of_nodup_nodup_toFinset_eq
    · exact (hnd.filter _)
    · exact hselnd
    · ext x
      simp only [List.mem_toFinset, List.mem_filter, decide_eq_true_iff]
      exact ⟨fun hx => hx.2, fun hx => ⟨hselsub x hx, hx⟩⟩
  have hperm : List.Perm (res.trainEdges ++ (res.posTest ++ res.posValid))
      g.edges := by
    rw [hjoin, htr]
    have hcomp : g.edges.filter (fun e => !decide (e ∉ sel)) =
        g.edges.filter (fun e => decide (e ∈ sel)) := by
      apply List.filter_congr
      intro x hx
      simp
    refine List.Perm.trans ?_ (filter_partition_perm
      (fun e => decide (e ∉ sel)) g.edges)
    rw [hcomp]
    exact (hfsel.symm.append_left _)
  refine ⟨hperm, ?_, ?_, ?_⟩
  · intro e he hpt2
    have h1 : e ∉ sel := by
      have := (List.mem_filter.1 (htr ▸ he)).2
      simpa using this
    exact h1 (hjoin ▸ List.mem_append_left _ hpt2)
  · intro e he hpv2
    have h1 : e ∉ sel := by
      have := (List.mem_filter.1 (htr ▸ he)).2
      simpa using this
    exact h1 (hjoin ▸ List.mem_append_right _ hpv2)
  · have hnod : (res.posTest ++ res.posValid).Nodup := by
      rw [hjoin]
      exact hselnd
    exact (List.nodup_append.1 hnod).2.2

theorem holdouts_partition_witness :
    cycleGraph6.edges.Nodup ∧
      (List.Perm (cycleRun6.trainEdges ++ (cycleRun6.posTest ++
          cycleRun6.posValid)) cycleGraph6.edges ∧
        List.Disjoint cycleRun6.trainEdges cycleRun6.posTest ∧
        List.Disjoint cycleRun6.trainEdges cycleRun6.posValid ∧
        List.Disjoint cycleRun6.posTest cycleRun6.posValid) :=
  ⟨by decide, holdouts_partition cycleGraph6 (4/5) false 1 cycleRun6
    (by decide) cycleRun6_eq⟩

/-- C3: on every successful holdout run the emitted negative sets match
the positive sets in size per split: as many negative test edges as
positive test edges, and as many negative validation edges as positive
validation edges. -/
theorem holdouts_balanced_negatives (g : Graph) (tf : ℚ) (v : Bool)
    (seed : ℕ) (res : HoldoutSplit)
    (h : makeHoldouts g tf v seed = Except.ok res) :
    res.negTest.length = res.posTest.length ∧
      res.negValid.length = res.posValid.length := by
  obtain ⟨-, hcore⟩ := makeHoldouts_ok_inv h
  obtain ⟨-, -, -, -, hneg⟩ := makeHoldoutsCore_ok_inv hcore
  obtain ⟨-, h2, h3, -, -⟩ := sampleNegative_spec hneg
  exact ⟨h2, h3⟩

theorem holdouts_balanced_negatives_witness :
    cycleRun6.negTest.length = cycleRun6.posTest.length ∧
      cycleRun6.negValid.length = cycleRun6.posValid.length :=
  holdouts_balanced_negatives cycleGraph6 (4/5) false 1 cycleRun6 cycleRun6_eq

/-- C4: on every successful holdout run, no emitted negative pair occurs
in the original edge set in either direction, no negative pair is a
self-loop, and no unordered node pair repeats across the emitted negative
sets. -/
theorem holdouts_negative_validity (g : Graph) (tf : ℚ) (v : Bool)
    (seed : ℕ) (res : HoldoutSplit)
    (h : makeHoldouts g tf v seed = Except.ok res) :
    (∀ p ∈ res.negTrain ++ res.negTest ++ res.negValid,
      p.1 ≠ p.2 ∧ (p.1, p.2) ∉ g.edges ∧ (p.2, p.1) ∉ g.edges) ∧
      (res.negTrain ++ res.negTest ++ res.negValid).Pairwise
        (fun p q => p ≠ q ∧ p ≠ (q.2, q.1)) := by
  obtain ⟨-, hcore⟩ := makeHoldouts_ok_inv h
  obtain ⟨-, -, -, -, hneg⟩ := makeHoldoutsCore_ok_inv hcore
  obtain ⟨-, -, -, h4, h5⟩ := sampleNegative_spec hneg
  refine ⟨?_, h5⟩
  intro p hp
  obtain ⟨g1, g2, g3⟩ := h4 p hp
  exact ⟨g1, isEdgeOf_eq_false.1 g2, isEdgeOf_eq_false.1 g3⟩

theorem holdouts_negative_validity_witness :
    (∀ p ∈ cycleRun6.negTrain ++ cycleRun6.negTest ++ cycleRun6.negValid,
      p.1 ≠ p.2 ∧ (p.1, p.2) ∉ cycleGraph6.edges ∧
        (p.2, p.1) ∉ cycleGraph6.edges) ∧
      (cycleRun6.negTrain ++ cycleRun6.negTest ++
          cycleRun6.negValid).Pairwise (fun p q => p ≠ q ∧ p ≠ (q.2, q.1)) :=
  holdouts_negative_validity cycleGraph6 (4/5) false 1 cycleRun6 cycleRun6_eq

/-- A five-node path: a tree, so its candidate set is empty. -/
def pathGraph5 : Graph :=
  ⟨[0, 1, 2, 3, 4], [(0,1), (1,2), (2,3), (3,4)]⟩

/-- The complete graph on four nodes: every distinct pair is an edge. -/
def completeGraph4 : Graph :=
  ⟨[0, 1, 2, 3], [(0,1), (0,2), (0,3), (1,2), (1,3), (2,3)]⟩

/-- C5: whenever the requested positive holdout count exceeds the number
of non-tree candidate edges, the pipeline fails with the
insufficient-candidates error rather than silently truncating. -/
theorem holdouts_insufficient_candidates (g : Graph) (tf : ℚ) (v : Bool)
    (seed : ℕ) (htf : 0 < tf ∧ tf ≤ 1)
    (hk : (buildForest g.edges).candidates.length <
      holdoutCount tf g.edges.length) :
    makeHoldouts g tf v seed =
      Except.error HoldoutError.insufficientCandidates := by
  rw [makeHoldouts, if_pos htf, makeHoldoutsCore, if_neg (by omega)]

theorem holdouts_insufficient_candidates_witness :
    ((0:ℚ) < 4/5 ∧ (4/5:ℚ) ≤ 1) ∧
      (buildForest pathGraph5.edges).candidates.length <
        holdoutCount (4/5) pathGraph5.edges.length ∧
      makeHoldouts pathGraph5 (4/5) false 1 =
        Except.error HoldoutError.insufficientCandidates := by
  have htf : (0:ℚ) < 4/5 ∧ (4/5:ℚ) ≤ 1 := by norm_num
  have hkeq : holdoutCount (4/5) pathGraph5.edges.length = 1 :=
    @holdoutCount_eq (4/5) 4 1 (by norm_num)
  have hk : (buildForest pathGraph5.edges).candidates.length <
      holdoutCount (4/5) pathGraph5.edges.length := by
    rw [hkeq]
    decide
  exact ⟨htf, hk,
    holdouts_insufficient_candidates pathGraph5 (4/5) false 1 htf hk⟩

/-- C6: the rejection loop of the negative sampler is bounded by the retry
cap: on a graph where every distinct node pair is already an edge, any run
that reaches negative sampling with at least one edge in the graph fails
with the negative-sampling-exhausted error instead of looping unboundedly.
-/
theorem holdouts_negative_exhausted (g : Graph) (tf : ℚ) (v : Bool)
    (seed : ℕ) (htf : 0 < tf ∧ tf ≤ 1)
    (hk : holdoutCount tf g.edges.length ≤
      (buildForest g.edges).candidates.length)
    (hE : 1 ≤ g.edges.length)
    (hcomp : ∀ a ∈ g.nodes, ∀ b ∈ g.nodes, a ≠ b →
      ((a, b) ∈ g.edges ∨ (b, a) ∈ g.edges)) :
    makeHoldouts g tf v seed =
      Except.error HoldoutError.negativeSamplingExhausted := by
  rw [makeHoldouts_eq_core htf rfl, makeHoldoutsCore, if_pos hk]
  simp only
  set k := holdoutCount tf g.edges.length with hkdef
  have hcomp2 : ∀ a ∈ g.nodes, ∀ b ∈ g.nodes, a ≠ b →
      ¬(isEdgeOf g.edges a b = false ∧ isEdgeOf g.edges b a = false) := by
    rintro a ha b hb hab ⟨hc1, hc2⟩
    rcases hcomp a ha b hb hab with h1 | h1
    · exact absurd h1 (isEdgeOf_eq_false.1 hc1)
    · exact absurd h1 (isEdgeOf_eq_false.1 hc2)
  have hq23 : ((selectedOf g k seed).take (nTestOf k v)).length +
      ((selectedOf g k seed).drop (nTestOf k v)).length = k := by
    rw [← List.length_append, List.take_append_drop]
    exact selectedOf_length seed hk
  have hq : 1 ≤
      (g.edges.filter (fun e => decide (e ∉ selectedOf g k seed))).length +
        ((selectedOf g k seed).take (nTestOf k v)).length +
        ((selectedOf g k seed).drop (nTestOf k v)).length := by
    rcases Nat.eq_zero_or_pos k with hk0 | hk1
    · have hsel0 : selectedOf g k seed = [] := by
        rw [selectedOf, hk0]
        exact List.take_zero _
      have hfil : g.edges.filter
          (fun e => decide (e ∉ selectedOf g k seed)) = g.edges := by
        rw [List.filter_eq_self]
        intro e he
        rw [hsel0]
        simp
      rw [hfil]
      omega
    · omega
  rw [sampleNegative_none_of_complete hcomp2 _ _ _ _ hq]

theorem holdouts_negative_exhausted_witness :
    ((0:ℚ) < 4/5 ∧ (4/5:ℚ) ≤ 1) ∧
      holdoutCount (4/5) completeGraph4.edges.length ≤
        (buildForest completeGraph4.edges).candidates.length ∧
      1 ≤ completeGraph4.edges.length ∧
      (∀ a ∈ completeGraph4.nodes, ∀ b ∈ completeGraph4.nodes, a ≠ b →
        ((a, b) ∈ completeGraph4.edges ∨ (b, a) ∈ completeGraph4.edges)) ∧
      makeHoldouts completeGraph4 (4/5) false 1 =
        Except.error HoldoutError.negativeSamplingExhausted := by
  have htf : (0:ℚ) < 4/5 ∧ (4/5:ℚ) ≤ 1 := by norm_num
  have hkeq : holdoutCount (4/5) completeGraph4.edges.length = 1 :=
    @holdoutCount_eq (4/5) 6 1 (by norm_num)
  have hk : holdoutCount (4/5) completeGraph4.edges.length ≤
      (buildForest completeGraph4.edges).candidates.length := by
    rw [hkeq]
    decide
  have hE : 1 ≤ completeGraph4.edges.length := by decide
  have hcomp : ∀ a ∈ completeGraph4.nodes, ∀ b ∈ completeGraph4.nodes,
      a ≠ b → ((a, b) ∈ completeGraph4.edges ∨
        (b, a) ∈ completeGraph4.edges) := by decide
  exact ⟨htf, hk, hE, hcomp,
    holdouts_negative_exhausted completeGraph4 (4/5) false 1 htf hk hE hcomp⟩

/-- C9: a train_fraction outside the interval (0, 1] makes the pipeline
fail with the invalid-argument error before any sampling work begins. -/
theorem holdouts_invalid_argument (g : Graph) (tf : ℚ) (v : Bool)
    (seed : ℕ) (h : tf ≤ 0 ∨ 1 < tf) :
    makeHoldouts g tf v seed =
      Except.error HoldoutError.invalidArgument := by
  rw [makeHoldouts, if_neg]
  rintro ⟨h1, h2⟩
  rcases h with h | h
  · exact absurd h1 (not_lt.2 h)
  · exact absurd h2 (not_le.2 h)

theorem holdouts_invalid_argument_witness :
    ((2:ℚ) ≤ 0 ∨ (1:ℚ) < 2) ∧
      makeHoldouts pathGraph5 2 false 1 =
        Except.error HoldoutError.invalidArgument :=
  ⟨Or.inr (by norm_num),
    holdouts_invalid_argument pathGraph5 2 false 1 (Or.inr (by norm_num))⟩

/-- C7: when validation is requested, the k positive holdouts are split as
ceil(k/2) test edges and floor(k/2) validation edges. -/
theorem holdouts_validation_split (g : Graph) (tf : ℚ) (seed : ℕ)
    (res : HoldoutSplit)
    (h : makeHoldouts g tf true seed = Except.ok res) :
    res.posTest.length = (holdoutCount tf g.edges.length + 1) / 2 ∧
      res.posValid.length = holdoutCount tf g.edges.length / 2 := by
  obtain ⟨-, hcore⟩ := makeHoldouts_ok_inv h
  obtain ⟨hk, hpt, hpv, -, -⟩ := makeHoldoutsCore_ok_inv hcore
  set k := holdoutCount tf g.edges.length with hkdef
  have hlen : (selectedOf g k seed).length = k := selectedOf_length seed hk
  rw [hpt, hpv, List.length_take, List.length_drop, hlen, nTestOf, if_pos rfl]
  omega

/-- The eight-node cycle with two chords: ten edges, three of them
non-tree. -/
def chordGraph10 : Graph :=
  ⟨[0, 1, 2, 3, 4, 5, 6, 7],
   [(0,1), (1,2), (2,3), (3,4), (4,5), (5,6), (6,7), (7,0), (0,2), (1,3)]⟩

/-- The split produced by the pipeline on `chordGraph10` with
train_fraction 4/5, validation requested, seed 1. -/
def chordRun10 : HoldoutSplit :=
  ⟨[(0,1), (1,2), (2,3), (3,4), (4,5), (5,6), (6,7), (7,0)],
   [(0,2)], [(1,3)],
   [(4,6), (5,7), (1,7), (1,6), (6,2), (4,1), (2,5), (5,3)],
   [(6,3)], [(0,5)]⟩

theorem holdouts_validation_split_witness :
    makeHoldouts chordGraph10 (4/5) true 1 = Except.ok chordRun10 ∧
      holdoutCount (4/5) chordGraph10.edges.length = 2 ∧
      chordRun10.posTest.length = 1 ∧ chordRun10.posValid.length = 1 := by
  have hkeq : holdoutCount (4/5) chordGraph10.edges.length = 2 :=
    @holdoutCount_eq (4/5) 10 2 (by norm_num)
  have hrun : makeHoldouts chordGraph10 (4/5) true 1 =
      Except.ok chordRun10 :=
    (makeHoldouts_eq_core (by norm_num) hkeq).trans (by decide)
  have h := holdouts_validation_split chordGraph10 (4/5) 1 chordRun10 hrun
  rw [hkeq] at h
  exact ⟨hrun, hkeq, h.1.trans (by norm_num), h.2.trans (by norm_num)⟩

/-- The command-line options declared on the holdouts command in
src/kg_vasc/run.py (lines 144-169): nodes, edges, output_dir,
train_fraction and validation. -/
def holdoutsCLIOptions : List String :=
  ["nodes", "edges", "output_dir", "train_fraction", "validation"]

/-- C8 counterexample: the holdouts command of the CLI does not expose a
random seed parameter. -/
theorem holdouts_cli_has_no_seed_option : "seed" ∉ holdoutsCLIOptions := by
  decide

/-- C8 (amended): the modelled holdout pipeline is deterministic in its
inputs and seed — two runs with identical input tables and identical seed
produce identical output splits — but the seed is not among the declared
CLI options of the holdouts command. -/
theorem holdouts_deterministic (g1 g2 : Graph) (t1 t2 : ℚ) (v1 v2 : Bool)
    (s1 s2 : ℕ) (hg : g1 = g2) (ht : t1 = t2) (hv : v1 = v2)
    (hs : s1 = s2) :
    makeHoldouts g1 t1 v1 s1 = makeHoldouts g2 t2 v2 s2 ∧
      "seed" ∉ holdoutsCLIOptions := by
  subst hg; subst ht; subst hv; subst hs
  exact ⟨rfl, by decide⟩

theorem holdouts_deterministic_witness :
    makeHoldouts cycleGraph6 (4/5) false 1 =
        makeHoldouts cycleGraph6 (4/5) false 1 ∧
      "seed" ∉ holdoutsCLIOptions :=
  holdouts_deterministic cycleGraph6 cycleGraph6 (4/5) (4/5) false false 1 1
    rfl rfl rfl rfl

/-- The observable effects a CLI command body could perform. -/
inductive CLIEffect where
  | fileWrite (path : String)
  | raised (message : String)
deriving DecidableEq

/-- The body of the holdouts click command in src/kg_vasc/run.py
(lines 170-207): the call to make_holdouts is commented out and the body
is a bare `pass`, so the command returns None (modelled as `none`) and
performs no effect. -/
def holdoutsCommand (_nodesPath _edgesPath _outputDir : String)
    (_trainFraction : ℚ) (_validation : Bool) :
    Option String × List CLIEffect :=
  (none, [])

/-- C10: for every combination of arguments accepted by its CLI options
the holdouts command returns None and performs no effect — it raises no
error, writes no output file and mutates no state, because its body is a
pass stub. -/
theorem holdouts_command_is_stub (nodesPath edgesPath outputDir : String)
    (trainFraction : ℚ) (validation : Bool) :
    holdoutsCommand nodesPath edgesPath outputDir trainFraction validation =
      (none, []) :=
  rfl

end KgVasc
